import Mathlib

/-!
Verification of the circular-context surprisal pipeline (hop_surprisal.py).

The development embeds, as Lean definitions, the parts of the program that the
specification's claims are about:

* the circular rotation and surprisal extraction of `compute_circular_surprisal`;
* the per-file sequence sampling loop (EOS appending, length filtering,
  sampling without replacement through a single seeded generator);
* the marker localizer / counterfactual builder loop with its assertions.

Real-valued tensor operations (softmax, log2) are embedded over `ℝ`; the
language model itself is an external collaborator and is represented as an
arbitrary function from a token sequence to one row of raw scores per position.
The numpy random generator is likewise external; it is modelled as a
deterministic state-passing generator whose drawn indices and state consumption
depend on the population size, as with numpy's bounded-integer sampling.
-/

namespace HopSurprisal

/-- Constant from the source: `MAX_TRAINING_STEPS = 3000`. -/
def MAX_TRAINING_STEPS : ℕ := 3000

/-- Constant from the source: `FILE_SAMPLE_SIZE = 1000`. -/
def FILE_SAMPLE_SIZE : ℕ := 1000

/-- Constant from the source: `MAX_SEQ_LEN = 1024`. -/
def MAX_SEQ_LEN : ℕ := 1024

/-- The rotation performed by `compute_circular_surprisal` (line 41):
`rotated_tokens = tokens[target_index + 1:] + tokens[:target_index] + [tokens[target_index]]`.
For a valid index `t < tokens.length`, `(tokens.drop t).take 1` is exactly the
one-element list `[tokens[t]]` of the source. -/
def rotateTokens (tokens : List ℕ) (t : ℕ) : List ℕ :=
  tokens.drop (t + 1) ++ tokens.take t ++ (tokens.drop t).take 1

/-- Embedding of `torch.nn.functional.softmax` on one row of raw scores. -/
noncomputable def softmax (row : List ℝ) : List ℝ :=
  row.map (fun x => Real.exp x / (row.map Real.exp).sum)

/-- The specification's prescribed computation route for §4.3 step 4: a
numerically stable base-2 log-softmax applied directly to the raw scores.
The source instead computes `torch.log2` of `softmax`; in exact real
arithmetic the two routes coincide (see `softmax_then_log_eq_logSoftmax2`),
so the difference is observable only in floating-point evaluation. -/
noncomputable def logSoftmax2 (row : List ℝ) : List ℝ :=
  row.map (fun x => (x - Real.log ((row.map Real.exp).sum)) / Real.log 2)

/-- Failure modes of the surprisal engine.  In the source both failures surface
as indexing errors; the spec's taxonomy names the empty-context case
`InvalidSequenceLengthError`. -/
inductive SurprisalError where
  | invalidSequenceLength : SurprisalError
  | targetOutOfVocab : SurprisalError
deriving DecidableEq, Repr

/-- Embedding of `compute_circular_surprisal` (lines 27-55).  The model is the
external prediction capability: it returns one row of raw scores (logits) per
input position.  The source slices off the last row (`logits[0, :-1]`), applies
softmax then log2 to every remaining row, and reads the entry of the last such
row (position L-2) at the final rotated token.  Indexing `log_probs[-1]` on an
empty slice — which happens exactly when the model emits at most one row, i.e.
for a length-1 sequence — is the `InvalidSequenceLengthError` failure. -/
noncomputable def compute_circular_surprisal (model : List ℕ → List (List ℝ))
    (tokens : List ℕ) (target_index : ℕ) : Except SurprisalError ℝ :=
  let rotated_tokens := rotateTokens tokens target_index
  let logits := (model rotated_tokens).dropLast
  let log_probs := logits.map (fun row => (softmax row).map (fun p => Real.logb 2 p))
  match log_probs.getLast? with
  | none => .error .invalidSequenceLength
  | some lastRow =>
    match rotated_tokens.getLast? with
    | none => .error .invalidSequenceLength
    | some target_token =>
      match lastRow.get? target_token with
      | none => .error .targetOutOfVocab
      | some lp => .ok (-lp)

/-- Failure modes of the sampler.  numpy raises on a without-replacement draw
larger than the population; the spec names this `InsufficientDataError`. -/
inductive SamplerError where
  | insufficientData : SamplerError
deriving DecidableEq, Repr

/-- A 64-bit linear congruential step, standing in for the external numpy
generator's state transition. -/
def lcg (s : ℕ) : ℕ := (6364136223846793005 * s + 1442695040888963407) % (2 ^ 64)

/-- Model of drawing `n` distinct elements from `pool` without replacement with
generator state `s`.  Each draw picks a position bounded by the current pool
size and mixes that bound into the state, reflecting that numpy's
bounded-integer sampling consumes the stream in a population-dependent way.
Returns the drawn elements together with the final state. -/
def drawDistinct : ℕ → List ℕ → ℕ → List ℕ × ℕ
  | 0, _, s => ([], s)
  | n + 1, pool, s =>
    if pool.length = 0 then ([], s)
    else
      let i := s % pool.length
      let rest := drawDistinct n (pool.eraseIdx i) (lcg (s + pool.length))
      (pool.getD i 0 :: rest.1, rest.2)

/-- Model of `rng.choice(list(range(k)), N, replace=False)` (lines 121-122):
fails when the population `k` is smaller than the requested size `N`
(numpy: "Cannot take a larger sample than population when replace=False"),
otherwise draws `N` distinct indices below `k` and advances the state. -/
def choiceNoReplace (s k N : ℕ) : Except SamplerError (List ℕ × ℕ) :=
  if k < N then .error .insufficientData
  else .ok (drawDistinct N (List.range k) s)

/-- The eligible population for one file (lines 117-120): append the EOS token
to every line, then keep the lines whose length (EOS included) is below `maxLen`. -/
def eligibleSequences (eos maxLen : ℕ) (lines : List (List ℕ)) : List (List ℕ) :=
  ((lines.map (fun l => l ++ [eos])).filter (fun toks => toks.length < maxLen))

/-- One file's sampling step (lines 121-124): draw `N` indices into the
eligible population without replacement and select those sequences. -/
def sampleFile (N s : ℕ) (eligible : List (List ℕ)) :
    Except SamplerError (List (List ℕ)) × ℕ :=
  match choiceNoReplace s eligible.length N with
  | .error e => (.error e, s)
  | .ok (idxs, s1) => (.ok (idxs.map (fun i => eligible.getD i [])), s1)

/-- The whole sampling loop (lines 104-124): one generator is created from the
seed before the loop and its state is threaded through the files in order. -/
def sampleAllFiles (eos maxLen N : ℕ) (s : ℕ) :
    List (List (List ℕ)) → Except SamplerError (List (List (List ℕ))) × ℕ
  | [] => (.ok [], s)
  | file :: rest =>
    match sampleFile N s (eligibleSequences eos maxLen file) with
    | (.error e, s1) => (.error e, s1)
    | (.ok samples, s1) =>
      match sampleAllFiles eos maxLen N s1 rest with
      | (.error e, s2) => (.error e, s2)
      | (.ok others, s2) => (.ok (samples :: others), s2)

/-- Failure modes of the localizer/builder loop.  In the source the missing
marker surfaces as `assert target_index is not None` (spec:
`MarkerNotFoundError`); a marker in the final position would make the assert
`tokens[target_index+1] == nomarker_tokens[target_index]` raise an IndexError;
a false assert body raises AssertionError. -/
inductive LocalizerError where
  | markerNotFound : LocalizerError
  | indexOutOfRange : LocalizerError
  | assertionFailed : LocalizerError
deriving DecidableEq, Repr

/-- Embedding of the localizer / counterfactual builder body (lines 128-145):
scan for the first marker token, build `nomarker_tokens` by removing the token
at that index (`list.pop`), and run the three source assertions.  A produced
record is the triple (marker sequence, counterfactual sequence, target index). -/
def localizeAndBuild (sg pl : ℕ) (tokens : List ℕ) :
    Except LocalizerError (List ℕ × List ℕ × ℕ) :=
  match tokens.findIdx? (fun tok => tok == sg || tok == pl) with
  | none => .error .markerNotFound
  | some t =>
    if t + 1 < tokens.length then
      if tokens.take t = (tokens.eraseIdx t).take t
          ∧ (tokens.getD t 0 = sg ∨ tokens.getD t 0 = pl)
          ∧ tokens.getD (t + 1) 0 = (tokens.eraseIdx t).getD t 0
      then .ok (tokens, tokens.eraseIdx t, t)
      else .error .assertionFailed
    else .error .indexOutOfRange

/-! ### Rotation lemmas -/

/-- For a valid target index the rotation is literally the three-slice
concatenation written in the source. -/
theorem drop_cons_getD (tokens : List ℕ) (t : ℕ) (ht : t < tokens.length) :
    tokens.drop t = tokens.getD t 0 :: tokens.drop (t + 1) := by
  rw [List.drop_eq_getElem_cons ht]
  congr 1
  simp [List.getD_eq_getElem?_getD, List.getElem?_eq_getElem ht]

theorem rotateTokens_eq_concat (tokens : List ℕ) (t : ℕ) (ht : t < tokens.length) :
    rotateTokens tokens t
      = tokens.drop (t + 1) ++ tokens.take t ++ [tokens.getD t 0] := by
  have h1 : (tokens.drop t).take 1 = [tokens.getD t 0] := by
    rw [drop_cons_getD tokens t ht, List.take_succ_cons, List.take_zero]
  unfold rotateTokens
  rw [h1]

/-- The rotation preserves the length of the sequence. -/
theorem rotateTokens_length (tokens : List ℕ) (t : ℕ) (ht : t < tokens.length) :
    (rotateTokens tokens t).length = tokens.length := by
  rw [rotateTokens_eq_concat tokens t ht]
  simp only [List.length_append, List.length_drop, List.length_take,
    List.length_cons, List.length_nil]
  omega

/-- The rotation is a permutation of the original sequence. -/
theorem rotateTokens_perm (tokens : List ℕ) (t : ℕ) (ht : t < tokens.length) :
    (rotateTokens tokens t).Perm tokens := by
  rw [rotateTokens_eq_concat tokens t ht]
  conv_rhs => rw [← List.take_append_drop t tokens, drop_cons_getD tokens t ht]
  rw [List.append_assoc]
  refine List.Perm.trans List.perm_append_comm ?_
  rw [List.append_assoc]
  exact List.Perm.refl _

/-- The target token lands at the final position of the rotation. -/
theorem rotateTokens_getLast? (tokens : List ℕ) (t : ℕ) (ht : t < tokens.length) :
    (rotateTokens tokens t).getLast? = some (tokens.getD t 0) := by
  rw [rotateTokens_eq_concat tokens t ht, List.append_assoc]
  rw [← List.append_assoc]
  exact List.getLast?_concat _

/-! ### Claim theorems: rotation -/

/-- Claim C2: for every valid target index the rotated sequence equals
`tokens[t+1 .. L-1] ++ tokens[0 .. t-1] ++ [tokens[t]]` and keeps length L; in
particular `[5,6,7,9]` rotates to `[6,7,9,5]` at index 0 and to itself at
index 3. -/
theorem claim_C2_rotation_shape (tokens : List ℕ) (t : ℕ) (ht : t < tokens.length) :
    rotateTokens tokens t
        = tokens.drop (t + 1) ++ tokens.take t ++ [tokens.getD t 0]
      ∧ (rotateTokens tokens t).length = tokens.length
      ∧ rotateTokens [5, 6, 7, 9] 0 = [6, 7, 9, 5]
      ∧ rotateTokens [5, 6, 7, 9] 3 = [5, 6, 7, 9] :=
  ⟨rotateTokens_eq_concat tokens t ht, rotateTokens_length tokens t ht,
    by decide, by decide⟩

/-- Claim C2 witness at tokens `[5,6,7,9]`, target index 0. -/
theorem claim_C2_rotation_shape_witness :
    rotateTokens [5, 6, 7, 9] 0
        = [5, 6, 7, 9].drop 1 ++ [5, 6, 7, 9].take 0 ++ [[5, 6, 7, 9].getD 0 0]
      ∧ (rotateTokens [5, 6, 7, 9] 0).length = [5, 6, 7, 9].length
      ∧ rotateTokens [5, 6, 7, 9] 0 = [6, 7, 9, 5]
      ∧ rotateTokens [5, 6, 7, 9] 3 = [5, 6, 7, 9] :=
  claim_C2_rotation_shape [5, 6, 7, 9] 0 (by decide)

/-- Claim C3: the rotation is a permutation of the original sequence — same
length and same multiset of tokens — and the target token always lands at the
final position. -/
theorem claim_C3_rotation_permutation (tokens : List ℕ) (t : ℕ)
    (ht : t < tokens.length) :
    (rotateTokens tokens t).Perm tokens
      ∧ (rotateTokens tokens t).length = tokens.length
      ∧ (rotateTokens tokens t : Multiset ℕ) = (tokens : Multiset ℕ)
      ∧ (rotateTokens tokens t).getLast? = some (tokens.getD t 0) :=
  ⟨rotateTokens_perm tokens t ht, rotateTokens_length tokens t ht,
    Multiset.coe_eq_coe.mpr (rotateTokens_perm tokens t ht),
    rotateTokens_getLast? tokens t ht⟩

/-- Claim C3 witness at tokens `[5,6,7,9]`, target index 1. -/
theorem claim_C3_rotation_permutation_witness :
    (rotateTokens [5, 6, 7, 9] 1).Perm [5, 6, 7, 9]
      ∧ (rotateTokens [5, 6, 7, 9] 1).length = [5, 6, 7, 9].length
      ∧ (rotateTokens [5, 6, 7, 9] 1 : Multiset ℕ) = ([5, 6, 7, 9] : Multiset ℕ)
      ∧ (rotateTokens [5, 6, 7, 9] 1).getLast? = some ([5, 6, 7, 9].getD 1 0) :=
  claim_C3_rotation_permutation [5, 6, 7, 9] 1 (by decide)

/-! ### Localizer lemmas -/

/-- Removing the token at index `t` leaves the prefix of length `t` unchanged. -/
theorem take_eraseIdx_eq (l : List ℕ) (t : ℕ) :
    l.take t = (l.eraseIdx t).take t := by
  apply List.ext_getElem?
  intro n
  by_cases hn : n < t
  · rw [List.getElem?_take_of_lt hn, List.getElem?_take_of_lt hn,
      List.getElem?_eraseIdx_of_lt _ _ _ hn]
  · rw [List.getElem?_take_eq_none (Nat.le_of_not_lt hn),
      List.getElem?_take_eq_none (Nat.le_of_not_lt hn)]

/-- After removing the token at index `t`, the token that sat at `t + 1` sits
at index `t`. -/
theorem getD_eraseIdx_succ (l : List ℕ) (t : ℕ) :
    l.getD (t + 1) 0 = (l.eraseIdx t).getD t 0 := by
  rw [List.getD_eq_getElem?_getD, List.getD_eq_getElem?_getD,
    List.getElem?_eraseIdx_of_ge _ _ _ (Nat.le_refl t)]

/-- A successful marker scan returns a valid index holding one of the two
marker tokens. -/
theorem findIdx?_marker (sg pl : ℕ) (tokens : List ℕ) (t : ℕ)
    (heq : tokens.findIdx? (fun tok => tok == sg || tok == pl) = some t) :
    t < tokens.length ∧ (tokens.getD t 0 = sg ∨ tokens.getD t 0 = pl) := by
  obtain ⟨htl, hfi⟩ := List.findIdx?_eq_some_iff_findIdx_eq.mp heq
  refine ⟨htl, ?_⟩
  have hw : tokens.findIdx (fun tok => tok == sg || tok == pl) < tokens.length := by
    rw [hfi]; exact htl
  have hp := List.findIdx_getElem (w := hw)
  simp only [hfi] at hp
  rw [List.getD_eq_getElem?_getD, List.getElem?_eq_getElem htl, Option.getD_some]
  simpa using hp

/-- The three source assertions of the builder loop always pass: the
`assertionFailed` outcome is unreachable. -/
theorem localizeAndBuild_assert_ok (sg pl : ℕ) (tokens : List ℕ) :
    localizeAndBuild sg pl tokens ≠ .error .assertionFailed := by
  intro h
  unfold localizeAndBuild at h
  split at h
  · simp at h
  · rename_i t hsome
    split_ifs at h with hlt hand
    · exact hand ⟨take_eraseIdx_eq tokens t, (findIdx?_marker sg pl tokens t hsome).2,
        getD_eraseIdx_succ tokens t⟩
    · simp at h

/-! ### Claim theorems: localizer / counterfactual builder -/

/-- Claim C4: every record produced by the localizer/builder satisfies the
counterfactual invariants: the counterfactual is the marker sequence with the
token at the target index deleted, prefixes before the target agree, the
target position holds a marker token, and the token that followed the marker
sits at the (unshifted) target index of the counterfactual. -/
theorem claim_C4_record_invariants (sg pl : ℕ) (tokens m c : List ℕ) (t : ℕ)
    (h : localizeAndBuild sg pl tokens = .ok (m, c, t)) :
    c = m.eraseIdx t
      ∧ m.take t = c.take t
      ∧ (m.getD t 0 = sg ∨ m.getD t 0 = pl)
      ∧ t + 1 < m.length
      ∧ m.getD (t + 1) 0 = c.getD t 0 := by
  unfold localizeAndBuild at h
  split at h
  · exact Except.noConfusion h
  · rename_i t' hsome
    split_ifs at h with hlt hand
    · simp only [Except.ok.injEq, Prod.mk.injEq] at h
      obtain ⟨rfl, rfl, rfl⟩ := h
      exact ⟨rfl, hand.1, hand.2.1, hlt, hand.2.2⟩

/-- Claim C4 witness: markers 3/4, sequence `[1,3,2]`, produced record
`([1,3,2], [1,2], 1)`. -/
theorem claim_C4_record_invariants_witness :
    ([1, 2] : List ℕ) = ([1, 3, 2] : List ℕ).eraseIdx 1
      ∧ ([1, 3, 2] : List ℕ).take 1 = ([1, 2] : List ℕ).take 1
      ∧ (([1, 3, 2] : List ℕ).getD 1 0 = 3 ∨ ([1, 3, 2] : List ℕ).getD 1 0 = 4)
      ∧ 1 + 1 < ([1, 3, 2] : List ℕ).length
      ∧ ([1, 3, 2] : List ℕ).getD (1 + 1) 0 = ([1, 2] : List ℕ).getD 1 0 :=
  claim_C4_record_invariants 3 4 [1, 3, 2] [1, 3, 2] [1, 2] 1 rfl

/-- Claim C8: a sequence containing no marker token makes the localizer fail
with the marker-not-found error instead of producing a record. -/
theorem claim_C8_marker_not_found (sg pl : ℕ) (tokens : List ℕ)
    (h : ∀ tok ∈ tokens, tok ≠ sg ∧ tok ≠ pl) :
    localizeAndBuild sg pl tokens = .error .markerNotFound := by
  have hnone : tokens.findIdx? (fun tok => tok == sg || tok == pl) = none := by
    rw [List.findIdx?_eq_none_iff]
    intro x hx
    have hx' := h x hx
    simp [hx'.1, hx'.2]
  unfold localizeAndBuild
  rw [hnone]

/-- Claim C8 witness: markers 5/6, sequence `[1,2]` without any marker. -/
theorem claim_C8_marker_not_found_witness :
    localizeAndBuild 5 6 [1, 2] = .error .markerNotFound :=
  claim_C8_marker_not_found 5 6 [1, 2] (by decide)

/-! ### Sampler lemmas -/

/-- Drawing without replacement returns exactly as many elements as
requested whenever the pool is large enough. -/
theorem drawDistinct_length (n : ℕ) :
    ∀ (pool : List ℕ) (s : ℕ), n ≤ pool.length →
      ((drawDistinct n pool s).1).length = n := by
  induction n with
  | zero => intro pool s _; rfl
  | succ n ih =>
    intro pool s h
    have hp : ¬ pool.length = 0 := by omega
    have hi : s % pool.length < pool.length :=
      Nat.mod_lt _ (Nat.pos_of_ne_zero hp)
    have hlen : n ≤ (pool.eraseIdx (s % pool.length)).length := by
      rw [List.length_eraseIdx_of_lt hi]; omega
    unfold drawDistinct
    rw [if_neg hp]
    simp only [List.length_cons, ih _ _ hlen]

/-- Every element drawn without replacement comes from the pool. -/
theorem drawDistinct_mem (n : ℕ) :
    ∀ (pool : List ℕ) (s x : ℕ), x ∈ (drawDistinct n pool s).1 → x ∈ pool := by
  induction n with
  | zero => intro pool s x h; simp [drawDistinct] at h
  | succ n ih =>
    intro pool s x h
    unfold drawDistinct at h
    by_cases hp : pool.length = 0
    · rw [if_pos hp] at h; simp at h
    · rw [if_neg hp] at h
      have hi : s % pool.length < pool.length :=
        Nat.mod_lt _ (Nat.pos_of_ne_zero hp)
      simp only [List.mem_cons] at h
      rcases h with h | h
      · subst h
        rw [List.getD_eq_getElem?_getD, List.getElem?_eq_getElem hi, Option.getD_some]
        exact List.getElem_mem hi
      · exact List.eraseIdx_subset _ _ (ih _ _ _ h)

/-- A population smaller than the requested size makes the sampling step fail
(numpy refuses a without-replacement draw larger than the population). -/
theorem sampleFile_insufficient (N s : ℕ) (eligible : List (List ℕ))
    (h : eligible.length < N) :
    (sampleFile N s eligible).1 = .error .insufficientData := by
  unfold sampleFile choiceNoReplace
  rw [if_pos h]

/-- With a sufficient population the sampling step succeeds and returns exactly
`N` sequences. -/
theorem sampleFile_success (N s : ℕ) (eligible : List (List ℕ))
    (h : N ≤ eligible.length) :
    ∃ out s1, sampleFile N s eligible = (.ok out, s1) ∧ out.length = N := by
  rcases hdd : drawDistinct N (List.range eligible.length) s with ⟨idxs, s1⟩
  refine ⟨idxs.map (fun i => eligible.getD i []), s1, ?_, ?_⟩
  · unfold sampleFile choiceNoReplace
    rw [if_neg (Nat.not_lt.mpr h), hdd]
  · rw [List.length_map]
    have hl := drawDistinct_length N (List.range eligible.length) s
      (by rw [List.length_range]; exact h)
    rw [hdd] at hl
    exact hl

/-- Every sequence returned by the sampling step is drawn from the eligible
population. -/
theorem sampleFile_mem (N s : ℕ) (eligible : List (List ℕ))
    (out : List (List ℕ)) (s1 : ℕ)
    (h : sampleFile N s eligible = (.ok out, s1)) :
    ∀ seq ∈ out, seq ∈ eligible := by
  unfold sampleFile choiceNoReplace at h
  by_cases hlt : eligible.length < N
  · rw [if_pos hlt] at h; simp at h
  · rw [if_neg hlt] at h
    rcases hdd : drawDistinct N (List.range eligible.length) s with ⟨idxs, s1'⟩
    rw [hdd] at h
    simp only [Prod.mk.injEq, Except.ok.injEq] at h
    obtain ⟨rfl, rfl⟩ := h
    intro seq hseq
    rw [List.mem_map] at hseq
    obtain ⟨i, hi, rfl⟩ := hseq
    have hipool : i < eligible.length := by
      have hmem := drawDistinct_mem N (List.range eligible.length) s i
        (by rw [hdd]; exact hi)
      exact List.mem_range.mp hmem
    rw [List.getD_eq_getElem?_getD, List.getElem?_eq_getElem hipool, Option.getD_some]
    exact List.getElem_mem hipool

/-- The code's filter keeps a line exactly when its length with the EOS token
already appended is below the maximum: the eligible population is the image of
the lines whose raw token count plus one is below the maximum. -/
theorem eligibleSequences_eq (eos maxLen : ℕ) (lines : List (List ℕ)) :
    eligibleSequences eos maxLen lines
      = (lines.filter (fun l => l.length + 1 < maxLen)).map (fun l => l ++ [eos]) := by
  unfold eligibleSequences
  rw [List.filter_map]
  congr 1
  apply List.filter_congr
  intro l _
  simp [List.length_append]

/-- Each eligible sequence ends with the EOS token and is strictly shorter
than the maximum length. -/
theorem mem_eligibleSequences (eos maxLen : ℕ) (lines : List (List ℕ))
    (seq : List ℕ) (h : seq ∈ eligibleSequences eos maxLen lines) :
    seq.getLast? = some eos ∧ seq.length < maxLen := by
  unfold eligibleSequences at h
  rw [List.mem_filter] at h
  obtain ⟨hmem, hlen⟩ := h
  rw [List.mem_map] at hmem
  obtain ⟨l, _, rfl⟩ := hmem
  exact ⟨List.getLast?_concat l, by simpa using hlen⟩

/-! ### Claim theorems: sampler -/

/-- Claim C7: when a file's eligible population has fewer than `N` lines the
sampler fails with the insufficient-data error; with enough lines it returns
exactly `N` sequences, never silently fewer. -/
theorem claim_C7_insufficient_data (N s : ℕ) (eligible : List (List ℕ)) :
    (eligible.length < N → (sampleFile N s eligible).1 = .error .insufficientData)
      ∧ (N ≤ eligible.length →
          ∃ out s1, sampleFile N s eligible = (.ok out, s1) ∧ out.length = N) :=
  ⟨sampleFile_insufficient N s eligible, sampleFile_success N s eligible⟩

/-- Claim C7 witness: population of one sequence, requested sizes 2 and 1. -/
theorem claim_C7_insufficient_data_witness :
    (sampleFile 2 0 [[5]]).1 = .error .insufficientData
      ∧ ∃ out s1, sampleFile 1 0 [[5]] = (.ok out, s1) ∧ out.length = 1 :=
  ⟨(claim_C7_insufficient_data 2 0 [[5]]).1 (by decide),
    (claim_C7_insufficient_data 1 0 [[5]]).2 (by decide)⟩

/-- Claim C9 counterexample: with the source's maximum sequence length 1024, a
line of 1023 raw tokens has a token count before the EOS token is appended
that is less than the maximum, yet the code filters it out (its length with
the EOS token appended is 1024), contrary to the claim's filtering rule. -/
theorem claim_C9_counterexample :
    (List.replicate 1023 (0 : ℕ)).length < MAX_SEQ_LEN
      ∧ eligibleSequences 0 MAX_SEQ_LEN [List.replicate 1023 0] = []
      ∧ ¬ (List.replicate 1023 (0 : ℕ) ++ [0]
            ∈ eligibleSequences 0 MAX_SEQ_LEN [List.replicate 1023 0]
          ↔ (List.replicate 1023 (0 : ℕ)).length < MAX_SEQ_LEN) := by
  have h1 : (List.replicate 1023 (0 : ℕ)).length = 1023 := by
    rw [List.length_replicate]
  have h2 : (decide ((List.replicate 1023 (0 : ℕ)).length + 1 < MAX_SEQ_LEN)) = false := by
    rw [h1]
    decide
  have hlt : (List.replicate 1023 (0 : ℕ)).length < MAX_SEQ_LEN := by
    rw [h1]
    decide
  have hnil : eligibleSequences 0 MAX_SEQ_LEN [List.replicate 1023 0] = [] := by
    rw [eligibleSequences_eq]
    simp only [List.filter_cons, h2, Bool.false_eq_true, if_false, List.filter_nil,
      List.map_nil]
  refine ⟨hlt, hnil, fun hiff => ?_⟩
  have hmem := hiff.mpr hlt
  rw [hnil] at hmem
  exact List.not_mem_nil _ hmem

/-- Claim C9 (amended): for each file the sampler produces exactly `N`
sequences, each ending with the EOS token and each strictly shorter than the
maximum length; filtering happens before sampling, and a line is filtered out
exactly when its token count with the EOS token appended is not less than the
maximum length. -/
theorem claim_C9_sampler_contract (eos maxLen N s : ℕ) (lines : List (List ℕ))
    (h : N ≤ (eligibleSequences eos maxLen lines).length) :
    (∃ out s1, sampleFile N s (eligibleSequences eos maxLen lines) = (.ok out, s1)
        ∧ out.length = N
        ∧ ∀ seq ∈ out, seq.getLast? = some eos ∧ seq.length < maxLen)
      ∧ eligibleSequences eos maxLen lines
          = (lines.filter (fun l => l.length + 1 < maxLen)).map (fun l => l ++ [eos]) := by
  refine ⟨?_, eligibleSequences_eq eos maxLen lines⟩
  obtain ⟨out, s1, hok, hlen⟩ := sampleFile_success N s _ h
  refine ⟨out, s1, hok, hlen, ?_⟩
  intro seq hseq
  exact mem_eligibleSequences eos maxLen lines seq
    (sampleFile_mem N s _ out s1 hok seq hseq)

/-- Claim C9 witness: eos 0, maximum length 3, sample size 1, lines `[[1]]`
and `[[1,2,3]]` (the second is filtered out). -/
theorem claim_C9_sampler_contract_witness :
    (∃ out s1, sampleFile 1 0 (eligibleSequences 0 3 [[1], [1, 2, 3]]) = (.ok out, s1)
        ∧ out.length = 1
        ∧ ∀ seq ∈ out, seq.getLast? = some 0 ∧ seq.length < 3)
      ∧ eligibleSequences 0 3 [[1], [1, 2, 3]]
          = ([[1], [1, 2, 3]].filter (fun l => l.length + 1 < 3)).map (fun l => l ++ [0]) :=
  claim_C9_sampler_contract 0 3 1 0 [[1], [1, 2, 3]] (by decide)

/-- Claim C10: the sampler threads one seeded generator state through the
files in order, so a later file's sample depends on the eligible populations
of the earlier files.  Concretely: two runs with the same seed 0, whose first
files have eligible populations of sizes 2 and 3, and whose second files are
identical, draw different samples for the second file. -/
theorem claim_C10_shared_stream :
    (eligibleSequences 0 10 [[1], [2]]).length = 2
      ∧ (eligibleSequences 0 10 [[1], [2], [3]]).length = 3
      ∧ (sampleAllFiles 0 10 1 0 [[[1], [2]], [[7], [8], [9]]]).1
          = .ok [[[1, 0]], [[8, 0]]]
      ∧ (sampleAllFiles 0 10 1 0 [[[1], [2], [3]], [[7], [8], [9]]]).1
          = .ok [[[1, 0]], [[7, 0]]]
      ∧ ([[8, 0]] : List (List ℕ)) ≠ [[7, 0]] :=
  ⟨rfl, rfl, rfl, rfl, by decide⟩

/-! ### Surprisal engine lemmas -/

/-- The last row kept by the `logits[0, :-1]` slice is the row at index
`length - 2` of the full output. -/
theorem getLast?_dropLast {α : Type} (l : List α) (h : 2 ≤ l.length) :
    l.dropLast.getLast? = l[l.length - 2]? := by
  rw [List.getLast?_eq_getElem?, List.length_dropLast, List.getElem?_dropLast]
  rw [if_pos (by omega)]
  congr 1

/-- Reduction of the surprisal engine on a well-formed call: the result is
minus the base-2 logarithm of the probability that the softmax of the model's
row at position `L - 2` assigns to `tokens[t]`, the final rotated token. -/
theorem compute_circular_surprisal_eq (model : List ℕ → List (List ℝ))
    (tokens : List ℕ) (t V : ℕ)
    (hL : 2 ≤ tokens.length) (ht : t < tokens.length)
    (hrows : (model (rotateTokens tokens t)).length = tokens.length)
    (hV : ∀ row ∈ model (rotateTokens tokens t), row.length = V)
    (htok : tokens.getD t 0 < V) :
    compute_circular_surprisal model tokens t
      = .ok (-(Real.logb 2
          ((softmax ((model (rotateTokens tokens t)).getD (tokens.length - 2) [])).getD
            (tokens.getD t 0) 0))) := by
  have hidx : tokens.length - 2 < (model (rotateTokens tokens t)).length := by
    rw [hrows]; omega
  have hrowmem : (model (rotateTokens tokens t)).getD (tokens.length - 2) []
      ∈ model (rotateTokens tokens t) := by
    rw [List.getD_eq_getElem?_getD, List.getElem?_eq_getElem hidx, Option.getD_some]
    exact List.getElem_mem hidx
  have hrowlen :
      (softmax ((model (rotateTokens tokens t)).getD (tokens.length - 2) [])).length = V := by
    unfold softmax
    rw [List.length_map]
    exact hV _ hrowmem
  have hlast : ((model (rotateTokens tokens t)).dropLast).getLast?
      = some ((model (rotateTokens tokens t)).getD (tokens.length - 2) []) := by
    rw [getLast?_dropLast _ (by rw [hrows]; omega), hrows,
      List.getElem?_eq_getElem hidx]
    congr 1
    rw [List.getD_eq_getElem?_getD, List.getElem?_eq_getElem hidx, Option.getD_some]
  have htarget : tokens.getD t 0
      < (softmax ((model (rotateTokens tokens t)).getD (tokens.length - 2) [])).length := by
    rw [hrowlen]; exact htok
  unfold compute_circular_surprisal
  simp only [List.getLast?_map, hlast, Option.map_some', rotateTokens_getLast? tokens t ht,
    List.get?_eq_getElem?, List.getElem?_map, List.getElem?_eq_getElem htarget]
  conv_rhs => rw [List.getD_eq_getElem?_getD, List.getElem?_eq_getElem htarget,
    Option.getD_some]

/-! ### Claim theorems: surprisal engine -/

/-- Claim C1: on a sequence of length at least 2 with a valid target index,
the engine returns minus the base-2 logarithm of the probability that the
output distribution at the second-to-last rotated position (index `L - 2`)
assigns to the final rotated token `tokens[t]`; when every output distribution
is uniform over a vocabulary of size `V`, the surprisal is `log2 V`. -/
theorem claim_C1_surprisal_value (model : List ℕ → List (List ℝ))
    (tokens : List ℕ) (t V : ℕ)
    (hL : 2 ≤ tokens.length) (ht : t < tokens.length)
    (hrows : (model (rotateTokens tokens t)).length = tokens.length)
    (hV : ∀ row ∈ model (rotateTokens tokens t), row.length = V)
    (htok : tokens.getD t 0 < V) :
    (compute_circular_surprisal model tokens t
        = .ok (-(Real.logb 2
            ((softmax ((model (rotateTokens tokens t)).getD (tokens.length - 2) [])).getD
              (tokens.getD t 0) 0))))
      ∧ ((∀ row ∈ model (rotateTokens tokens t),
            softmax row = List.replicate V ((V : ℝ)⁻¹)) →
          compute_circular_surprisal model tokens t = .ok (Real.logb 2 (V : ℝ))) := by
  have hbase := compute_circular_surprisal_eq model tokens t V hL ht hrows hV htok
  refine ⟨hbase, fun huni => ?_⟩
  have hrowmem : (model (rotateTokens tokens t)).getD (tokens.length - 2) []
      ∈ model (rotateTokens tokens t) := by
    have hidx : tokens.length - 2 < (model (rotateTokens tokens t)).length := by
      rw [hrows]; omega
    rw [List.getD_eq_getElem?_getD, List.getElem?_eq_getElem hidx, Option.getD_some]
    exact List.getElem_mem hidx
  rw [hbase, huni _ hrowmem]
  have hV' : tokens.getD t 0 < (List.replicate V ((V : ℝ)⁻¹)).length := by
    rw [List.length_replicate]; exact htok
  rw [List.getD_eq_getElem?_getD, List.getElem?_eq_getElem hV', Option.getD_some,
    List.getElem_replicate, Real.logb_inv, neg_neg]

/-- Claim C1 witness: a stub model emitting constant scores `[0,0]` (a uniform
distribution over a vocabulary of size 2) on tokens `[0,1]`, target index 0:
the surprisal is `log2 2`. -/
theorem claim_C1_surprisal_value_witness :
    compute_circular_surprisal (fun x => x.map (fun _ => [(0 : ℝ), 0])) [0, 1] 0
      = .ok (Real.logb 2 ((2 : ℕ) : ℝ)) := by
  have huni : ∀ row ∈ (fun (x : List ℕ) => x.map (fun _ => [(0 : ℝ), 0]))
      (rotateTokens [0, 1] 0), softmax row = List.replicate 2 (((2 : ℕ) : ℝ))⁻¹ := by
    intro row hrow
    simp only [List.mem_map] at hrow
    obtain ⟨a, -, rfl⟩ := hrow
    unfold softmax
    norm_num [Real.exp_zero, List.replicate]
  exact (claim_C1_surprisal_value (fun x => x.map (fun _ => [(0 : ℝ), 0])) [0, 1] 0 2
    (by decide) (by decide) (by rw [List.length_map, rotateTokens_length _ _ (by decide)])
    (by
      intro row hrow
      simp only [List.mem_map] at hrow
      obtain ⟨a, -, rfl⟩ := hrow
      rfl)
    (by decide)).2 huni

/-- Claim C6: a length-1 input sequence has no predictive context: the sliced
logits are empty and the engine fails with the invalid-sequence-length error
rather than returning a surprisal. -/
theorem claim_C6_length_one (model : List ℕ → List (List ℝ))
    (tokens : List ℕ) (t : ℕ)
    (h1 : tokens.length = 1) (ht : t < tokens.length)
    (hrows : (model (rotateTokens tokens t)).length = (rotateTokens tokens t).length) :
    compute_circular_surprisal model tokens t = .error .invalidSequenceLength := by
  have hrot : (rotateTokens tokens t).length = 1 := by
    rw [rotateTokens_length tokens t ht, h1]
  have hdrop : (model (rotateTokens tokens t)).dropLast = [] := by
    apply List.eq_nil_of_length_eq_zero
    rw [List.length_dropLast, hrows, hrot]
  unfold compute_circular_surprisal
  simp only [hdrop, List.map_nil, List.getLast?_nil]

/-- Claim C6 witness: the one-token sequence `[7]`. -/
theorem claim_C6_length_one_witness :
    compute_circular_surprisal (fun x => x.map (fun _ => ([] : List ℝ))) [7] 0
      = .error .invalidSequenceLength :=
  claim_C6_length_one (fun x => x.map (fun _ => ([] : List ℝ))) [7] 0 rfl (by decide)
    (by rw [List.length_map])

/-! ### Exact-arithmetic equivalence of the two log-probability routes -/

/-- Over the reals, composing softmax with the base-2 logarithm — the route
the source takes at line 52 — agrees with the stable log-softmax the spec
prescribes.  The two differ only under floating-point evaluation. -/
theorem softmax_then_log_eq_logSoftmax2 (row : List ℝ) (h : row ≠ []) :
    (softmax row).map (fun p => Real.logb 2 p) = logSoftmax2 row := by
  have hsum : 0 < (row.map Real.exp).sum := by
    apply List.sum_pos
    · intro x hx
      rw [List.mem_map] at hx
      obtain ⟨a, -, rfl⟩ := hx
      exact Real.exp_pos a
    · simpa using h
  unfold softmax logSoftmax2
  rw [List.map_map]
  apply List.map_congr_left
  intro a _
  simp only [Function.comp_apply]
  rw [Real.logb, Real.log_div (Real.exp_ne_zero a) (ne_of_gt hsum), Real.log_exp]

end HopSurprisal
